import Mathlib

/-!
Verification of the afk-python automation framework core against its
specification.  Each subsystem that the checked claims touch is shallowly
embedded: byte streams become `List Nat`, filesystem slices become explicit
maps or lists of paths, and the Python functions become executable Lean
functions translated statement by statement from the source.

Embedded source locations:
* `afk/storage/utils/rsync.py` — `get_chunks`, `raw_hash_check`, `sync_files`
* `observer/storage/models/local_filesystem.py` — `LocalFile.sync_locations`
  (regular-file branch), `LocalFile.rotate`, `LocalFile.move` (local→local,
  regular files)
* `afk/task_runner.py` — `Runner._check_tasks` (reaper pass)
* `afk/task.py` — `_exit_code`, `BaseTask.check_run_conditions`
* `observer/afk_scheduler.py` — `_calculate_first_run`,
  `TaskLikeAddition.calculate_next_run` and the re-queue step of
  `_run_scheduler`
* `afk/storage/storage.py` — the `data_loc` / `tmp_loc` / `report_loc` /
  `archive_loc` property setters
-/

namespace AfkSpec

/-! ### Byte streams (the model of Python binary file objects)

A byte stream's contents are a `List Nat`.  A `seek(pos)` followed by
`write(chunk)` is `writeAt`: POSIX semantics, with zero fill when the seek
position is past the end of the file.  `truncate(n)` is `truncateTo`. -/

abbrev Bytes := List Nat

/-- POSIX `seek(pos)` + `write(chunk)` on a regular file: bytes before `pos`
are kept, a gap (if `pos` is past EOF) is zero-filled, `chunk` is written at
`pos`, and bytes after the written range are kept. -/
def writeAt (dest : Bytes) (pos : Nat) (chunk : Bytes) : Bytes :=
  dest.take pos ++ List.replicate (pos - dest.length) 0 ++ chunk ++
    dest.drop (pos + chunk.length)

/-- POSIX `truncate(n)`: shrink to `n` bytes, or zero-fill up to `n`. -/
def truncateTo (dest : Bytes) (n : Nat) : Bytes :=
  dest.take n ++ List.replicate (n - dest.length) 0

/-- Fuelled splitting of a stream into successive `read(blocksize)` results
(the read loop of `get_chunks` / `sync_files`); the fuel is instantiated with
the stream length, which suffices whenever `0 < b`. -/
def chunksAux (b : Nat) : Nat → Bytes → List Bytes
  | _, [] => []
  | 0, _ :: _ => []
  | fuel + 1, x :: xs => (x :: xs).take b :: chunksAux b fuel ((x :: xs).drop b)

/-- The list of blocks obtained by reading a stream `blocksize` bytes at a
time until `read` returns empty. -/
def chunks (b : Nat) (l : Bytes) : List Bytes := chunksAux b l.length l

section Rsync

variable {A B : Type} [DecidableEq A] [DecidableEq B]

/-! The two block hashes `zlib.adler32` and `hashlib.sha256(·).hexdigest()`
are external library functions; they are parameters `adler32 : Bytes → A` and
`sha256hex : Bytes → B` of the embedding.  The composite signature of a block
is the pair `(adler32 chunk, sha256hex chunk)` exactly as in `get_chunks`. -/

/-- The per-block `(adler32, sha256-hex)` signatures of a stream, in block
order (the body of `get_chunks`'s read loop). -/
def chunkSigs (adler32 : Bytes → A) (sha256hex : Bytes → B) (b : Nat)
    (l : Bytes) : List (A × B) :=
  (chunks b l).map (fun c => (adler32 c, sha256hex c))

/-- Embedding of `get_chunks` (rsync.py): the `(adler32, sha256-hex)`
signature of every block of the open file, accumulated in a deque that is
reversed before being returned, together with the block count. -/
def get_chunks (adler32 : Bytes → A) (sha256hex : Bytes → B) (b : Nat)
    (open_file : Bytes) : List (A × B) × Nat :=
  ((chunkSigs adler32 sha256hex b open_file).reverse,
    (chunks b open_file).length)

/-- Embedding of `raw_hash_check` (rsync.py).  `sha256` digests a stream
incrementally, so the digest of the whole stream is a function
`fullHash : Bytes → C` of the stream contents; the check compares the two
digests (and rewinds both streams, which the stateless model needs not
track). -/
def raw_hash_check {C : Type} [DecidableEq C] (fullHash : Bytes → C)
    (src_file dest_file : Bytes) : Bool :=
  decide (fullHash src_file = fullHash dest_file)

/-- The block loop of `sync_files` (rsync.py).  Walks the source blocks with
their running index `i`; while `i < queue_l` it pops the next destination
signature from the right end of the deque `q` and marks the block dirty when
either hash differs, past `queue_l` every block is dirty; a dirty block is
written at offset `i * b`.  Returns the final destination bytes together with
the list of indices of the blocks that were written (the instrumentation the
spec's scenario S5 observes); `none` models an `IndexError` popping an empty
deque, which a well-formed call never hits. -/
def syncLoop (adler32 : Bytes → A) (sha256hex : Bytes → B) (b queueL : Nat) :
    List Bytes → List (A × B) → Nat → Bytes → Option (Bytes × List Nat)
  | [], _, _, dest => some (dest, [])
  | c :: rest, q, i, dest =>
    if i < queueL then
      match q.getLast? with
      | none => none
      | some s =>
        let wb : Bool := decide (adler32 c ≠ s.1) || decide (sha256hex c ≠ s.2)
        let dest' := if wb then writeAt dest (i * b) c else dest
        match syncLoop adler32 sha256hex b queueL rest q.dropLast (i + 1) dest' with
        | none => none
        | some (dF, ws) => some (dF, if wb then i :: ws else ws)
    else
      match syncLoop adler32 sha256hex b queueL rest q (i + 1)
          (writeAt dest (i * b) c) with
      | none => none
      | some (dF, ws) => some (dF, i :: ws)

/-- Embedding of `sync_files` (rsync.py): signature the destination's blocks,
run the block loop over the source's blocks, and finally truncate the
destination to `src_fileio.tell()`, i.e. to the source's byte length. -/
def sync_files (adler32 : Bytes → A) (sha256hex : Bytes → B) (b : Nat)
    (src_fileio dest_fileio : Bytes) : Option (Bytes × List Nat) :=
  let gc := get_chunks adler32 sha256hex b dest_fileio
  match syncLoop adler32 sha256hex b gc.2 (chunks b src_fileio) gc.1 0 dest_fileio with
  | none => none
  | some (dF, ws) => some (truncateTo dF src_fileio.length, ws)

/-- A regular file as `sync_locations` sees it: its byte contents plus the
cached modify time (`size` is the content length). -/
structure FileSt where
  content : Bytes
  mtime : Int
deriving DecidableEq

/-- Embedding of the regular-file branch of `LocalFile.sync_locations`
(local_filesystem.py lines 364–375), for an existing destination `dst` and an
existing regular-file source `src`.  Returns the updated destination file and
whether `sync_files` was invoked (the "block transfer performed" flag).
`fullHash` abstracts the whole-stream `sha256` digest of `raw_hash_check`. -/
def sync_locations_file {C : Type} [DecidableEq C]
    (adler32 : Bytes → A) (sha256hex : Bytes → B) (fullHash : Bytes → C)
    (use_metadata full_hashcheck : Bool) (dst src : FileSt) :
    Option (FileSt × Bool) :=
  if (use_metadata && (decide (dst.mtime ≠ src.mtime)
        || decide (dst.content.length ≠ src.content.length)))
      || (!use_metadata || full_hashcheck) then
    if !full_hashcheck || raw_hash_check fullHash src.content dst.content then
      match sync_files adler32 sha256hex 4096 src.content dst.content with
      | none => none
      | some (c', _) => some ({ dst with content := c' }, true)
    else some (dst, false)
  else some (dst, false)

end Rsync

/-! ### The Runner's reaper pass (`Runner._check_tasks`, task_runner.py)

Live instances are keyed by the composite key `"<task-name>-<uuid>"`.  The
model records, for each live instance, its key, whether `is_alive()` still
returns true, and its `exitcode`.  The mutex registry `__task_mutex_refs` is
an association list from composite key to the mutex file's path, the on-disk
state is the list of existing mutex paths, and emitted log records are
`(composite key, message)` pairs. -/

structure TaskEntry where
  name : String
  alive : Bool
  exitcode : Int
deriving DecidableEq

structure RunnerSt where
  current_runnings : List TaskEntry
  task_mutex_refs : List (String × String)
  mutex_files : List String
  logs : List (String × String)
deriving DecidableEq

/-- Association-list lookup, the model of a Python `dict` read (keys are
unique in a dict, hence the first match). -/
def lookupKey (k : String) : List (String × String) → Option String
  | [] => none
  | (k', v) :: rest => if k' = k then some v else lookupKey k rest

/-- Model of `dict.pop(name)` on a registry with unique keys: drop the
entries carrying that key. -/
def eraseKey (k : String) (l : List (String × String)) : List (String × String) :=
  l.filter (fun kv => kv.1 ≠ k)

/-- One iteration of the reaper's `for name, task in current_runnings` loop
with `graceful_kill` false.  A finished instance with nonzero exit gets
`JOB_FAILED`; one with exit zero first has its registered mutex popped from
the registry and deleted from disk (if any) and then gets `JOB_COMPLETED`;
an instance still alive is left alone (the `sleep` branch). -/
def reapStep (st : RunnerSt) (e : TaskEntry) : RunnerSt :=
  if e.alive then st
  else if e.exitcode ≠ 0 then
    { st with logs := st.logs ++ [(e.name, "JOB_FAILED")] }
  else
    let st1 :=
      match lookupKey e.name st.task_mutex_refs with
      | some path =>
        { st with task_mutex_refs := eraseKey e.name st.task_mutex_refs,
                  mutex_files := st.mutex_files.filter (fun p => p ≠ path) }
      | none => st
    { st1 with logs := st1.logs ++ [(e.name, "JOB_COMPLETED")] }

/-- One pass of `Runner._check_tasks` over the current instances with
`graceful_kill` false: every instance is examined in order, then every
reaped (finished) entry is removed from `current_runnings`. -/
def check_tasks (st : RunnerSt) : RunnerSt :=
  let st' := st.current_runnings.foldl reapStep st
  { st' with current_runnings := st'.current_runnings.filter (fun e => e.alive) }

/-- The terminal record one reaper iteration emits for an entry: nothing for
a live instance, `JOB_FAILED` for a nonzero exit, `JOB_COMPLETED` for exit
zero. -/
def reapMsg (e : TaskEntry) : Option (String × String) :=
  if e.alive then none
  else if e.exitcode ≠ 0 then some (e.name, "JOB_FAILED")
  else some (e.name, "JOB_COMPLETED")

/-- The composite keys whose mutex registration a reaper pass clears: the
finished entries with exit code zero. -/
def deadZeroNames (l : List TaskEntry) : List String :=
  (l.filter (fun e => !e.alive && decide (e.exitcode = 0))).map TaskEntry.name

/-! ### Task pre-flight (`_exit_code` and `BaseTask.check_run_conditions`,
task.py)

Paths are strings; the filesystem slice the pre-flight touches is the list of
existing paths (all the probed entries are regular files, so `is_file` and
`exists` coincide here).  The storage helpers that derive concrete file names
(`Storage.mutex` setter, `gen_archivefile_ref`) and `rotate` on the archive
file are parameters of the embedding. -/

/-- Outcome of running a piece of task code: it ran through, requested a
process exit with a code, or raised (the `_exit_code` RuntimeError in
interactive mode). -/
inductive Outcome
  | finished
  | exited (code : Int)
  | raisedCannotRun
deriving DecidableEq

/-- Embedding of `_exit_code` (task.py): `sys.exit(code)` outside of an
interactive shell, a `RuntimeError` inside one. -/
def exit_code (interactive : Bool) (code : Int := 0) : Outcome :=
  if !interactive then .exited code else .raisedCannotRun

structure TaskSt where
  task_name : String
  uuid : String
  has_mutex : Bool
  has_archive : Bool
  interactive : Bool
  task_run_check : Bool
  mutex : Option String
  archive_file : Option String
  halt_files : List String
  required_files : List String
deriving DecidableEq

structure TaskWorld where
  task : TaskSt
  fs : List String
  mutex_queue : List (String × String)
  logs : List String
deriving DecidableEq

/-- Steps 1–2 of `check_run_conditions`: bind the storage's mutex file name
to the task name and the archive file name to `<task-name>.tar.bz2`, through
the `Storage.mutex` / `Storage.archive_file` setters (abstracted as the
name-derivation functions `mutexPath` and `archivePath`). -/
def bindNames (mutexPath archivePath : String → String) (t : TaskSt) : TaskSt :=
  let t1 := if t.has_mutex then { t with mutex := some (mutexPath t.task_name) } else t
  if t1.has_archive then { t1 with archive_file := some (archivePath t1.task_name) } else t1

/-- Embedding of `BaseTask.check_run_conditions` (task.py lines 147–182).
`rotateFs fs p` abstracts `LocalFile.rotate` on the archive file.  Returns
the updated world and the outcome. -/
def check_run_conditions (mutexPath archivePath : String → String)
    (rotateFs : List String → String → List String)
    (w : TaskWorld) (override : Bool) : TaskWorld × Outcome :=
  let t := bindNames mutexPath archivePath w.task
  let w := { w with task := t }
  -- archive check
  let archiveHit := match t.archive_file with
    | some a => decide (a ∈ w.fs)
    | none => false
  let w := if archiveHit then { w with logs := w.logs ++ ["ARCHIVE_FILE_FOUND"] } else w
  if archiveHit && !override then (w, exit_code t.interactive)
  else
  let w := if archiveHit then
      { w with fs := rotateFs w.fs (t.archive_file.getD "") } else w
  -- halt files
  match t.halt_files.find? (fun hf => decide (hf ∈ w.fs)) with
  | some _ => ({ w with logs := w.logs ++ ["STOP_FILE_FOUND"] }, exit_code t.interactive)
  | none =>
  -- required files
  if !(t.required_files.all (fun rf => decide (rf ∈ w.fs))) then
    ({ w with logs := w.logs ++ ["DEP_FILES_MISSING"] }, exit_code t.interactive)
  else
  -- mutex check
  match t.mutex with
  | some m =>
    if m ∈ w.fs then
      ({ w with logs := w.logs ++ ["MUTEX_FOUND"] }, exit_code t.interactive)
    else
      -- touch the mutex, enqueue (composite key, mutex), emit CONDITIONS_PASSED
      ({ w with
          task := { t with task_run_check := true },
          fs := w.fs ++ [m],
          mutex_queue := w.mutex_queue ++ [(t.task_name ++ "-" ++ t.uuid, m)],
          logs := w.logs ++ ["CONDITIONS_PASSED"] }, .finished)
  | none =>
    -- `self.storage.mutex.touch()` on a storage without a mutex: AttributeError
    ({ w with task := { t with task_run_check := true } }, .raisedCannotRun)

/-! ### Scheduler next-fire computation (`_calculate_first_run`,
afk_scheduler.py) -/

/-- A `datetime.datetime` at the resolution the scheduler uses (the code
truncates to the minute wherever it builds one). -/
structure PyDateTime where
  year : Nat
  month : Nat
  day : Nat
  hour : Nat
  minute : Nat
deriving DecidableEq

/-- Lexicographic key for datetime comparison. -/
def dtKey (d : PyDateTime) : Nat :=
  (((d.year * 13 + d.month) * 32 + d.day) * 24 + d.hour) * 60 + d.minute

/-- The `datetime(...)` constructor's range validation for the fields this
model can overflow: `hour` must be in `0..23` and `minute` in `0..59`. -/
def mkDatetime (y mo d h mi : Nat) : Except String PyDateTime :=
  if h ≤ 23 ∧ mi ≤ 59 then .ok ⟨y, mo, d, h, mi⟩ else .error "ValueError"

/-- Embedding of `_calculate_first_run` (afk_scheduler.py lines 29–54),
including its error behaviour: negative intervals raise `ValueError`,
`minute % 0` raises `ZeroDivisionError`, indexing an empty candidate list
raises `IndexError`, and an out-of-range `hour` raises `ValueError` in the
`datetime` constructor.  Note the candidate minutes range over
`range(59) = 0..58`. -/
def calculate_first_run (min_interval h_interval : Option Int)
    (start_time : Option PyDateTime) (now : PyDateTime) : Except String PyDateTime :=
  if (match min_interval with | some m => decide (m < 0) | none => false)
      || (match h_interval with | some h => decide (h < 0) | none => false) then
    .error "ValueError: negative interval"
  else if (min_interval = none ∨ min_interval = some 0)
      ∧ (h_interval = none ∨ h_interval = some 0) then
    match start_time with
    | some st => if dtKey now ≤ dtKey st then .ok st else .ok now
    | none => .ok now
  else
    match min_interval with
    | none => mkDatetime now.year now.month now.day (now.hour + 1) 0
    | some m =>
      let h : Int := match h_interval with | none => 0 | some v => v
      if m = 0 then .error "ZeroDivisionError"
      else
        match (List.range 59).filter
            (fun mi => decide (mi % m.toNat = 0) && decide (now.minute ≤ mi)) with
        | [] => .error "IndexError"
        | x :: _ => mkDatetime now.year now.month now.day (now.hour + h.toNat) x

/-! ### Schedule entry re-queue (`TaskLikeAddition.calculate_next_run` and
the fire step of `_run_scheduler`, afk_scheduler.py)

Interval components are naturals: `TaskLikeAddition.__init__` runs every
schedule through `_calculate_first_run`, which raises on negative values, so
no entry with a negative component ever exists.  Times are minutes on an
absolute axis; `timedelta(hours=h, minutes=m)` is `h * 60 + m` minutes. -/

structure ScheduleSpec where
  min_interval : Nat
  h_interval : Nat
deriving DecidableEq

structure SchedEntry where
  schedule : Option ScheduleSpec
  next_run : Option Int
deriving DecidableEq

/-- Embedding of `TaskLikeAddition.calculate_next_run`: entries without a
schedule get `next_run = None`; recurring entries advance `next_run` by
`timedelta(hours=h_interval, minutes=min_interval)`. -/
def calculate_next_run (e : SchedEntry) : SchedEntry :=
  match e.schedule with
  | none => { e with next_run := none }
  | some sch =>
    { e with next_run :=
        e.next_run.map (fun t => t + ((sch.h_interval : Int) * 60 + sch.min_interval)) }

/-- The re-queue decision after a fire (`_run_scheduler`): recompute
`next_run`, then push the entry back only when it is still recurring
(`next_run is not None`). -/
def requeue_after_fire (e : SchedEntry) : Option SchedEntry :=
  let e' := calculate_next_run e
  if e'.next_run.isSome then some e' else none

/-! ### `LocalFile.rotate` (local_filesystem.py lines 293–309)

Only the rotated location `L` and its derived names `L.old<N>` matter, so
the filesystem slice is a predicate on the inductive name space
`base | old n` (decimal suffixes `.old0`, `.old1`, … are distinct for
distinct `n`). -/

inductive RotName
  | base
  | old (n : Nat)
deriving DecidableEq

/-- The `while True` search of `rotate`: starting at `counter`, the first
`N` with `L.old<N>` not existing.  The loop in the source is unbounded; the
fuel is enough as soon as it exceeds some bound past which no `L.old<N>`
exists. -/
def rotateFind (fs : RotName → Bool) : Nat → Nat → Option Nat
  | _, 0 => none
  | counter, fuel + 1 =>
    if fs (.old counter) then rotateFind fs (counter + 1) fuel else some counter

/-- Embedding of `LocalFile.rotate`: find the smallest free `N`, then
`Path.rename` the entry onto `L.old<N>`; the rename raises
`FileNotFoundError` when `L` itself does not exist. -/
def rotate (fs : RotName → Bool) (fuel : Nat) : Except String (RotName → Bool) :=
  match rotateFind fs 0 fuel with
  | none => .error "fuel exhausted"
  | some n =>
    if fs .base then
      .ok (fun p =>
        match p with
        | .base => false
        | .old m => if m = n then true else fs (.old m))
    else .error "FileNotFoundError"

/-! ### `LocalFile.move` to a local destination (local_filesystem.py lines
250–270)

For regular-file locations on the local backend: the filesystem is a map
from path to contents, and `Path.rename` has POSIX semantics — it replaces
an existing destination file (the source only logs a warning first) and
raises when the source is missing. -/

/-- Embedding of `LocalFile.move` for two local regular-file locations.
Returns the new filesystem and whether the "will be overwritten" warning was
logged. -/
def move_local (fs : String → Option Bytes) (self_path other_path : String) :
    Except String ((String → Option Bytes) × Bool) :=
  let warned := (fs other_path).isSome
  match fs self_path with
  | none => .error "FileNotFoundError"
  | some content =>
    .ok (fun p =>
      if p = other_path then some content
      else if p = self_path then none
      else fs p, warned)

/-- Discriminator for `Except` results, for stating that an operation
succeeded. -/
def exceptIsOk {E R : Type} : Except E R → Bool
  | .ok _ => true
  | .error _ => false

/-! ### Storage slot setters (storage.py lines 187–253)

`generate_storage_location` (the config-to-Location factory) and
`join_loc` are parameters; a setter argument is either a configuration
dictionary or an already-built Location. -/

inductive StorageArg (Cfg Loc : Type)
  | dict (cfg : Cfg)
  | loc (l : Loc)
deriving DecidableEq

section StorageSetters

variable {Cfg Loc : Type}

/-- Embedding of `_check_storage_arg`: a dict is resolved through the
factory, an existing Location passes through. -/
def check_storage_arg (gen : Cfg → Loc) : StorageArg Cfg Loc → Loc
  | .dict c => gen c
  | .loc l => l

structure StorageSt (Cfg Loc : Type) where
  report_date_str : String
  data_loc : Loc
  report_loc : Loc
  archive_loc : Loc
  tmp_loc : StorageArg Cfg Loc
  archive_file : Option Loc

/-- Embedding of `gen_archivefile_ref` (storage.py): split the file name on
`.` and join the archive location with `<stem>_<date>.<suffixes>` (the
`mkdir` side effect is not part of the value computed). -/
def gen_archivefile_ref (joinLoc : Loc → String → Loc) (st : StorageSt Cfg Loc)
    (file_name : String) : Loc :=
  let f_split := file_name.splitOn "."
  joinLoc st.archive_loc
    ((f_split.headD "") ++ "_" ++ st.report_date_str ++ "."
      ++ String.intercalate "." f_split.tail)

/-- Embedding of the `data_loc` setter: resolve the argument and store the
resolved Location joined with the dated subdirectory `data_<date>`. -/
def set_data_loc (gen : Cfg → Loc) (joinLoc : Loc → String → Loc)
    (st : StorageSt Cfg Loc) (new_loc : StorageArg Cfg Loc) : StorageSt Cfg Loc :=
  let tmp_ref := check_storage_arg gen new_loc
  { st with data_loc := joinLoc tmp_ref ("data_" ++ st.report_date_str) }

/-- Embedding of the `report_loc` setter, joining `report_<date>`. -/
def set_report_loc (gen : Cfg → Loc) (joinLoc : Loc → String → Loc)
    (st : StorageSt Cfg Loc) (new_loc : StorageArg Cfg Loc) : StorageSt Cfg Loc :=
  let tmp_ref := check_storage_arg gen new_loc
  { st with report_loc := joinLoc tmp_ref ("report_" ++ st.report_date_str) }

/-- Embedding of the `archive_loc` setter, joining `archive_<date>` and
re-deriving the archive-file reference when one is bound (`stemOf`
abstracts `__get_stem_prefix`). -/
def set_archive_loc (gen : Cfg → Loc) (joinLoc : Loc → String → Loc)
    (stemOf : Loc → String) (st : StorageSt Cfg Loc) (new_loc : StorageArg Cfg Loc) :
    StorageSt Cfg Loc :=
  let tmp_ref := check_storage_arg gen new_loc
  let st1 := { st with archive_loc := joinLoc tmp_ref ("archive_" ++ st.report_date_str) }
  match st.archive_file with
  | none => st1
  | some af => { st1 with archive_file := some (gen_archivefile_ref joinLoc st1 (stemOf af)) }

/-- Embedding of the `tmp_loc` setter (storage.py lines 205–215): the
resolved `tmp_ref` is computed (and logged) but the slot is assigned the
raw `new_loc` argument. -/
def set_tmp_loc (gen : Cfg → Loc) (st : StorageSt Cfg Loc)
    (new_loc : StorageArg Cfg Loc) : StorageSt Cfg Loc :=
  let _tmp_ref := check_storage_arg gen new_loc
  { st with tmp_loc := new_loc }

end StorageSetters

/-! ## Theorems -/

/-! ### Block-stream lemmas -/

/-- Helper: the fuel of `chunksAux` is irrelevant once it covers the stream
length (for a positive block size). -/
theorem chunksAux_congr (b : Nat) (hb : 0 < b) :
    ∀ (fuel1 fuel2 : Nat) (l : Bytes), l.length ≤ fuel1 → l.length ≤ fuel2 →
      chunksAux b fuel1 l = chunksAux b fuel2 l := by
  intro fuel1
  induction fuel1 with
  | zero =>
    intro fuel2 l h1 _
    have : l = [] := List.length_eq_zero.mp (by omega)
    subst this
    cases fuel2 <;> rfl
  | succ fuel1 ih =>
    intro fuel2 l h1 h2
    cases l with
    | nil => cases fuel2 <;> rfl
    | cons x xs =>
      cases fuel2 with
      | zero => simp at h2
      | succ fuel2 =>
        simp only [chunksAux]
        congr 1
        exact ih fuel2 ((x :: xs).drop b)
          (by simp only [List.length_drop, List.length_cons] at h1 ⊢; omega)
          (by simp only [List.length_drop, List.length_cons] at h2 ⊢; omega)

/-- Helper: reading a nonempty stream yields its first block followed by the
blocks of what remains. -/
theorem chunks_cons (b : Nat) (hb : 0 < b) (l : Bytes) (hl : l ≠ []) :
    chunks b l = l.take b :: chunks b (l.drop b) := by
  cases l with
  | nil => exact absurd rfl hl
  | cons x xs =>
    show chunksAux b (xs.length + 1) (x :: xs) = _
    simp only [chunksAux]
    congr 1
    exact chunksAux_congr b hb xs.length ((x :: xs).drop b).length ((x :: xs).drop b)
      (by simp only [List.length_drop, List.length_cons]; omega) le_rfl

/-- Helper: the empty stream has no blocks. -/
theorem chunks_nil (b : Nat) : chunks b [] = [] := rfl

/-- Helper: a stream is covered by its blocks (bounded-fuel induction). -/
theorem length_le_mul_chunks_aux (b : Nat) (hb : 0 < b) :
    ∀ (n : Nat) (l : Bytes), l.length ≤ n → l.length ≤ b * (chunks b l).length := by
  intro n
  induction n with
  | zero =>
    intro l h
    have : l = [] := List.length_eq_zero.mp (by omega)
    subst this
    simp
  | succ n ih =>
    intro l h
    cases l with
    | nil => simp
    | cons x xs =>
      rw [chunks_cons b hb (x :: xs) (by simp)]
      have hih := ih ((x :: xs).drop b)
        (by simp only [List.length_drop, List.length_cons] at h ⊢; omega)
      simp only [List.length_cons, List.length_drop] at hih ⊢
      rw [Nat.mul_succ]
      omega

/-- Helper: a stream is covered by its blocks. -/
theorem length_le_mul_chunks (b : Nat) (hb : 0 < b) (l : Bytes) :
    l.length ≤ b * (chunks b l).length :=
  length_le_mul_chunks_aux b hb l.length l le_rfl

/-- Helper: the `i`-th block of a stream is the `b`-byte slice at offset
`i * b`. -/
theorem chunks_getD (b : Nat) (hb : 0 < b) :
    ∀ (i : Nat) (l : Bytes), (chunks b l).getD i [] = (l.drop (i * b)).take b := by
  intro i
  induction i with
  | zero =>
    intro l
    cases l with
    | nil => simp [chunks_nil]
    | cons x xs =>
      rw [chunks_cons b hb _ (by simp)]
      simp
  | succ i ih =>
    intro l
    cases l with
    | nil => simp [chunks_nil]
    | cons x xs =>
      rw [chunks_cons b hb _ (by simp), List.getD_cons_succ, ih ((x :: xs).drop b),
        List.drop_drop]
      have harith : b + i * b = (i + 1) * b := by
        rw [Nat.succ_mul, Nat.add_comm]
      rw [harith]

/-- Helper: `writeAt` inside the file needs no zero fill. -/
theorem writeAt_eq (dest : Bytes) (pos : Nat) (c : Bytes) (h : pos ≤ dest.length) :
    writeAt dest pos c = dest.take pos ++ c ++ dest.drop (pos + c.length) := by
  unfold writeAt
  rw [Nat.sub_eq_zero_of_le h]
  simp

/-- Helper: `writeAt` keeps the bytes before the write position. -/
theorem writeAt_take (dest : Bytes) (pos : Nat) (c : Bytes) (h : pos ≤ dest.length) :
    (writeAt dest pos c).take pos = dest.take pos := by
  rw [writeAt_eq dest pos c h, List.append_assoc]
  exact List.take_left' (by simp [List.length_take]; omega)

/-- Helper: `writeAt` keeps the bytes past the written range. -/
theorem writeAt_drop (dest : Bytes) (pos : Nat) (c : Bytes) :
    (writeAt dest pos c).drop (pos + c.length) = dest.drop (pos + c.length) := by
  unfold writeAt
  exact List.drop_left' (by simp [List.length_take, List.length_replicate]; omega)

/-- Helper: `writeAt` puts the chunk at the write position. -/
theorem writeAt_middle (dest : Bytes) (pos : Nat) (c : Bytes) (h : pos ≤ dest.length) :
    ((writeAt dest pos c).drop pos).take c.length = c := by
  rw [writeAt_eq dest pos c h, List.append_assoc,
    List.drop_left' (by simp [List.length_take]; omega)]
  exact List.take_left' rfl

/-- Helper: the length of a written file. -/
theorem writeAt_length (dest : Bytes) (pos : Nat) (c : Bytes) (h : pos ≤ dest.length) :
    (writeAt dest pos c).length = max dest.length (pos + c.length) := by
  unfold writeAt
  simp only [List.length_append, List.length_take, List.length_replicate,
    List.length_drop]
  omega

/-- Helper: truncating within the file is `take`. -/
theorem truncateTo_of_le (dest : Bytes) (n : Nat) (h : n ≤ dest.length) :
    truncateTo dest n = dest.take n := by
  unfold truncateTo
  rw [Nat.sub_eq_zero_of_le h]
  simp

/-- Helper: a `take` that produced `c` still produces `c` when shortened to
`c`'s own length. -/
theorem take_of_take_eq (x c : Bytes) (b : Nat) (h : x.take b = c)
    (hlen : c.length ≤ b) : x.take c.length = c := by
  have : x.take c.length = (x.take b).take c.length := by
    rw [List.take_take, Nat.min_eq_left hlen]
  rw [this, h, List.take_length]

/-- Helper: the loop invariant of `sync_files`.  Starting at block index `i`
with the still-unpopped signature deque and a destination that agrees with
the original destination from offset `i * b` on (and whose processed prefix
is long enough), the loop succeeds, never touches the first `i * b` bytes,
makes the destination agree with the remaining source bytes from offset
`i * b` on, and writes exactly the blocks the claim describes. -/
theorem syncLoop_spec {A B : Type} [DecidableEq A] [DecidableEq B]
    (adler32 : Bytes → A) (sha256hex : Bytes → B)
    (hinj : ∀ x y : Bytes, adler32 x = adler32 y → sha256hex x = sha256hex y → x = y)
    (b : Nat) (hb : 0 < b) (dest0 : Bytes) :
    ∀ (n : Nat) (s : Bytes), s.length ≤ n →
      ∀ (i : Nat) (q : List (A × B)) (dest : Bytes),
      (s ≠ [] →
        q = ((chunkSigs adler32 sha256hex b dest0).drop i).reverse
        ∧ dest.drop (i * b) = dest0.drop (i * b)
        ∧ i * b ≤ dest.length) →
      ∃ dF ws,
        syncLoop adler32 sha256hex b (chunks b dest0).length (chunks b s) q i dest
          = some (dF, ws)
        ∧ dF.take (i * b) = dest.take (i * b)
        ∧ (dF.drop (i * b)).take s.length = s
        ∧ (∀ j, j ∈ ws ↔ (i ≤ j ∧ j < i + (chunks b s).length ∧
            ((chunks b dest0).length ≤ j ∨
              ¬(adler32 ((chunks b s).getD (j - i) [])
                  = adler32 ((chunks b dest0).getD j [])
                ∧ sha256hex ((chunks b s).getD (j - i) [])
                  = sha256hex ((chunks b dest0).getD j []))))) := by
  intro n
  induction n with
  | zero =>
    intro s hs i q dest _
    have hsnil : s = [] := List.length_eq_zero.mp (by omega)
    subst hsnil
    refine ⟨dest, [], by rw [chunks_nil]; rfl, rfl, by simp, ?_⟩
    intro j
    simp only [List.not_mem_nil, chunks_nil, List.length_nil, Nat.add_zero, false_iff,
      not_and]
    intro h1 h2
    omega
  | succ n ih =>
    intro s hs i q dest hyp
    by_cases hsnil : s = []
    · subst hsnil
      refine ⟨dest, [], by rw [chunks_nil]; rfl, rfl, by simp, ?_⟩
      intro j
      simp only [List.not_mem_nil, chunks_nil, List.length_nil, Nat.add_zero, false_iff,
        not_and]
      intro h1 h2
      omega
    · obtain ⟨hq, hd, hlen⟩ := hyp hsnil
      have hcons := chunks_cons b hb s hsnil
      have hs_pos : 0 < s.length := List.length_pos.mpr hsnil
      have hc_le : (s.take b).length ≤ b := by
        simp [List.length_take]
      have hgl : ∀ j, i + 1 ≤ j →
          (chunks b s).getD (j - i) [] = (chunks b (s.drop b)).getD (j - (i + 1)) [] := by
        intro j hj
        rw [hcons]
        have hidx : j - i = (j - (i + 1)) + 1 := by omega
        rw [hidx, List.getD_cons_succ]
      have hc0 : (chunks b s).getD (i - i) [] = s.take b := by
        rw [hcons]
        simp
      have hdchunk : (chunks b dest0).getD i [] = (dest0.drop (i * b)).take b :=
        chunks_getD b hb i dest0
      have hchain : ∀ dQ : Bytes, dQ.drop (i * b) = dest0.drop (i * b) →
          dQ.drop ((i + 1) * b) = dest0.drop ((i + 1) * b) := by
        intro dQ hdQ
        have h1 := congrArg (List.drop b) hdQ
        rw [List.drop_drop, List.drop_drop] at h1
        have harith : i * b + b = (i + 1) * b := by rw [Nat.succ_mul]
        rwa [harith] at h1
      have hcb_of : s.drop b ≠ [] → (s.take b).length = b := by
        intro hs'
        have hblt := mt List.drop_eq_nil_iff.mpr hs'
        simp only [List.length_take]
        omega
      have hlc : (chunks b s).length = (chunks b (s.drop b)).length + 1 := by
        rw [hcons, List.length_cons]
      by_cases hiL : i < (chunks b dest0).length
      · -- the loop pops the i-th destination signature
        have hi : i < (chunkSigs adler32 sha256hex b dest0).length := by
          simpa [chunkSigs] using hiL
        have hql : q.getLast? = some ((chunkSigs adler32 sha256hex b dest0)[i]) := by
          rw [hq, List.getLast?_reverse, List.head?_eq_getElem?, List.getElem?_drop,
            Nat.add_zero, List.getElem?_eq_getElem hi]
        have hsig : (chunkSigs adler32 sha256hex b dest0)[i]
            = (adler32 ((chunks b dest0).getD i []),
               sha256hex ((chunks b dest0).getD i [])) := by
          rw [List.getD_eq_getElem _ [] hiL]
          simp [chunkSigs]
        have hq' : q.dropLast
            = ((chunkSigs adler32 sha256hex b dest0).drop (i + 1)).reverse := by
          rw [hq, List.dropLast_reverse, List.tail_drop]
        by_cases hmatch : adler32 (s.take b) = adler32 ((chunks b dest0).getD i [])
            ∧ sha256hex (s.take b) = sha256hex ((chunks b dest0).getD i [])
        · -- clean block: signatures agree, nothing is written
          have hceq : s.take b = (chunks b dest0).getD i [] :=
            hinj _ _ hmatch.1 hmatch.2
          have harg : s.drop b ≠ [] →
              q.dropLast = ((chunkSigs adler32 sha256hex b dest0).drop (i + 1)).reverse
              ∧ dest.drop ((i + 1) * b) = dest0.drop ((i + 1) * b)
              ∧ (i + 1) * b ≤ dest.length := by
            intro hs'
            refine ⟨hq', hchain dest hd, ?_⟩
            have hcb := hcb_of hs'
            have hdb : ((chunks b dest0).getD i []).length = b := by
              rw [← hceq]; exact hcb
            rw [hdchunk] at hdb
            simp only [List.length_take, List.length_drop] at hdb
            have hld := congrArg List.length hd
            simp only [List.length_drop] at hld
            rw [Nat.succ_mul]
            omega
          obtain ⟨dF, ws', hrun, htk, hdtk, hws⟩ :=
            ih (s.drop b) (by simp only [List.length_drop]; omega) (i + 1)
              q.dropLast dest harg
          have hwb1 : decide (adler32 (s.take b)
              ≠ adler32 ((chunks b dest0).getD i [])) = false :=
            decide_eq_false (fun h => h hmatch.1)
          have hwb2 : decide (sha256hex (s.take b)
              ≠ sha256hex ((chunks b dest0).getD i [])) = false :=
            decide_eq_false (fun h => h hmatch.2)
          refine ⟨dF, ws', ?_, ?_, ?_, ?_⟩
          · rw [hcons]
            simp only [syncLoop, if_pos hiL, hql, hsig, hwb1, hwb2, Bool.or_self,
              Bool.false_eq_true, if_false, hrun]
          · have h1 := congrArg (List.take (i * b)) htk
            rw [List.take_take, List.take_take] at h1
            have hmin : i * b ⊓ ((i + 1) * b) = i * b :=
              Nat.min_eq_left (Nat.mul_le_mul_right b (by omega))
            rwa [hmin] at h1
          · have hsplit : s.take b ++ s.drop b = s := List.take_append_drop b s
            have hslen : s.length = (s.take b).length + (s.drop b).length := by
              rw [← List.length_append, hsplit]
            rw [hslen, List.take_add]
            have hbslice : (dF.drop (i * b)).take b = (dest.drop (i * b)).take b := by
              have h1 := congrArg (List.drop (i * b)) htk
              rw [List.drop_take, List.drop_take] at h1
              have harith : (i + 1) * b - i * b = b := by rw [Nat.succ_mul]; omega
              rwa [harith] at h1
            have hp1 : (dF.drop (i * b)).take (s.take b).length = s.take b := by
              have h2 := congrArg (List.take (s.take b).length) hbslice
              rw [List.take_take, List.take_take, Nat.min_eq_left hc_le] at h2
              rw [h2, hd]
              exact take_of_take_eq _ _ b (by rw [hdchunk] at hceq; exact hceq.symm) hc_le
            rw [hp1]
            by_cases hdone : s.drop b = []
            · have hble : s.length ≤ b := List.drop_eq_nil_iff.mp hdone
              simp [hdone, List.take_of_length_le hble]
            · have hcb := hcb_of hdone
              rw [hcb, List.drop_drop]
              have harith : i * b + b = (i + 1) * b := by rw [Nat.succ_mul]
              rw [harith, hdtk]
              exact hsplit
          · intro j
            rw [hws j]
            constructor
            · rintro ⟨h1, h2, h3⟩
              refine ⟨by omega, by omega, ?_⟩
              rw [hgl j h1]
              exact h3
            · rintro ⟨h1, h2, h3⟩
              have hji : j ≠ i := by
                intro he
                subst he
                rcases h3 with h3 | h3
                · omega
                · rw [hc0] at h3
                  exact h3 hmatch
              refine ⟨by omega, by omega, ?_⟩
              rw [hgl j (by omega)] at h3
              exact h3
        · -- dirty block: some hash differs, the block is written at i * b
          have hwb : (decide (adler32 (s.take b)
                ≠ adler32 ((chunks b dest0).getD i []))
              || decide (sha256hex (s.take b)
                ≠ sha256hex ((chunks b dest0).getD i []))) = true := by
            rw [Bool.or_eq_true]
            rcases not_and_or.mp hmatch with h | h
            · exact Or.inl (decide_eq_true h)
            · exact Or.inr (decide_eq_true h)
          have harg : s.drop b ≠ [] →
              q.dropLast = ((chunkSigs adler32 sha256hex b dest0).drop (i + 1)).reverse
              ∧ (writeAt dest (i * b) (s.take b)).drop ((i + 1) * b)
                  = dest0.drop ((i + 1) * b)
              ∧ (i + 1) * b ≤ (writeAt dest (i * b) (s.take b)).length := by
            intro hs'
            have hcb := hcb_of hs'
            refine ⟨hq', ?_, ?_⟩
            · have h1 := writeAt_drop dest (i * b) (s.take b)
              rw [hcb] at h1
              have harith : i * b + b = (i + 1) * b := by rw [Nat.succ_mul]
              rw [harith] at h1
              rw [h1]
              exact hchain dest hd
            · rw [writeAt_length dest (i * b) (s.take b) hlen, hcb, Nat.succ_mul]
              omega
          obtain ⟨dF, ws', hrun, htk, hdtk, hws⟩ :=
            ih (s.drop b) (by simp only [List.length_drop]; omega) (i + 1)
              q.dropLast (writeAt dest (i * b) (s.take b)) harg
          refine ⟨dF, i :: ws', ?_, ?_, ?_, ?_⟩
          · rw [hcons]
            simp only [syncLoop, if_pos hiL, hql, hsig, hwb, if_true, hrun]
          · have h1 := congrArg (List.take (i * b)) htk
            rw [List.take_take, List.take_take] at h1
            have hmin : i * b ⊓ ((i + 1) * b) = i * b :=
              Nat.min_eq_left (Nat.mul_le_mul_right b (by omega))
            rw [hmin] at h1
            rw [h1]
            exact writeAt_take dest (i * b) (s.take b) hlen
          · have hsplit : s.take b ++ s.drop b = s := List.take_append_drop b s
            have hslen : s.length = (s.take b).length + (s.drop b).length := by
              rw [← List.length_append, hsplit]
            rw [hslen, List.take_add]
            have hbslice : (dF.drop (i * b)).take b
                = ((writeAt dest (i * b) (s.take b)).drop (i * b)).take b := by
              have h1 := congrArg (List.drop (i * b)) htk
              rw [List.drop_take, List.drop_take] at h1
              have harith : (i + 1) * b - i * b = b := by rw [Nat.succ_mul]; omega
              rwa [harith] at h1
            have hp1 : (dF.drop (i * b)).take (s.take b).length = s.take b := by
              have h2 := congrArg (List.take (s.take b).length) hbslice
              rw [List.take_take, List.take_take, Nat.min_eq_left hc_le] at h2
              rw [h2]
              exact writeAt_middle dest (i * b) (s.take b) hlen
            rw [hp1]
            by_cases hdone : s.drop b = []
            · have hble : s.length ≤ b := List.drop_eq_nil_iff.mp hdone
              simp [hdone, List.take_of_length_le hble]
            · have hcb := hcb_of hdone
              rw [hcb, List.drop_drop]
              have harith : i * b + b = (i + 1) * b := by rw [Nat.succ_mul]
              rw [harith, hdtk]
              exact hsplit
          · intro j
            rw [List.mem_cons, hws j]
            constructor
            · rintro (hj | ⟨h1, h2, h3⟩)
              · subst hj
                refine ⟨le_rfl, by omega, Or.inr ?_⟩
                rw [hc0]
                exact hmatch
              · refine ⟨by omega, by omega, ?_⟩
                rw [hgl j h1]
                exact h3
            · rintro ⟨h1, h2, h3⟩
              by_cases hji : j = i
              · exact Or.inl hji
              · refine Or.inr ⟨by omega, by omega, ?_⟩
                rw [hgl j (by omega)] at h3
                exact h3
      · -- past the destination's block count: every block is written
        have hLle : (chunks b dest0).length ≤ i := by omega
        have hqnil : q = [] := by
          rw [hq, List.drop_eq_nil_iff.mpr (by simp [chunkSigs]; omega)]
          rfl
        have harg : s.drop b ≠ [] →
            q = ((chunkSigs adler32 sha256hex b dest0).drop (i + 1)).reverse
            ∧ (writeAt dest (i * b) (s.take b)).drop ((i + 1) * b)
                = dest0.drop ((i + 1) * b)
            ∧ (i + 1) * b ≤ (writeAt dest (i * b) (s.take b)).length := by
          intro hs'
          have hcb := hcb_of hs'
          refine ⟨?_, ?_, ?_⟩
          · rw [hqnil, List.drop_eq_nil_iff.mpr (by simp [chunkSigs]; omega)]
            rfl
          · have h1 := writeAt_drop dest (i * b) (s.take b)
            rw [hcb] at h1
            have harith : i * b + b = (i + 1) * b := by rw [Nat.succ_mul]
            rw [harith] at h1
            rw [h1]
            exact hchain dest hd
          · rw [writeAt_length dest (i * b) (s.take b) hlen, hcb, Nat.succ_mul]
            omega
        obtain ⟨dF, ws', hrun, htk, hdtk, hws⟩ :=
          ih (s.drop b) (by simp only [List.length_drop]; omega) (i + 1)
            q (writeAt dest (i * b) (s.take b)) harg
        refine ⟨dF, i :: ws', ?_, ?_, ?_, ?_⟩
        · rw [hcons]
          simp only [syncLoop, if_neg hiL, hrun]
        · have h1 := congrArg (List.take (i * b)) htk
          rw [List.take_take, List.take_take] at h1
          have hmin : i * b ⊓ ((i + 1) * b) = i * b :=
            Nat.min_eq_left (Nat.mul_le_mul_right b (by omega))
          rw [hmin] at h1
          rw [h1]
          exact writeAt_take dest (i * b) (s.take b) hlen
        · have hsplit : s.take b ++ s.drop b = s := List.take_append_drop b s
          have hslen : s.length = (s.take b).length + (s.drop b).length := by
            rw [← List.length_append, hsplit]
          rw [hslen, List.take_add]
          have hbslice : (dF.drop (i * b)).take b
              = ((writeAt dest (i * b) (s.take b)).drop (i * b)).take b := by
            have h1 := congrArg (List.drop (i * b)) htk
            rw [List.drop_take, List.drop_take] at h1
            have harith : (i + 1) * b - i * b = b := by rw [Nat.succ_mul]; omega
            rwa [harith] at h1
          have hp1 : (dF.drop (i * b)).take (s.take b).length = s.take b := by
            have h2 := congrArg (List.take (s.take b).length) hbslice
            rw [List.take_take, List.take_take, Nat.min_eq_left hc_le] at h2
            rw [h2]
            exact writeAt_middle dest (i * b) (s.take b) hlen
          rw [hp1]
          by_cases hdone : s.drop b = []
          · have hble : s.length ≤ b := List.drop_eq_nil_iff.mp hdone
            simp [hdone, List.take_of_length_le hble]
          · have hcb := hcb_of hdone
            rw [hcb, List.drop_drop]
            have harith : i * b + b = (i + 1) * b := by rw [Nat.succ_mul]
            rw [harith, hdtk]
            exact hsplit
        · intro j
          rw [List.mem_cons, hws j]
          constructor
          · rintro (hj | ⟨h1, h2, h3⟩)
            · subst hj
              exact ⟨le_rfl, by omega, Or.inl hLle⟩
            · refine ⟨by omega, by omega, ?_⟩
              rw [hgl j h1]
              exact h3
          · rintro ⟨h1, h2, h3⟩
            by_cases hji : j = i
            · exact Or.inl hji
            · refine Or.inr ⟨by omega, by omega, ?_⟩
              rw [hgl j (by omega)] at h3
              exact h3

/-- C3: `sync_files` correctness.  For every source stream, destination
stream and blocksize `b > 0`, with the `(adler32, sha256hex)` block
signature idealised as collision-free (the spec itself argues a false
positive of the composite pair is cryptographically negligible): the run
succeeds, the written blocks are exactly the indices `i` that are at least
the destination's block count or whose destination-block signature pair
differs from the source block's (each written at offset `i * b`, as the
definition shows), and after the final truncation to the source's byte
length the destination equals the source. -/
theorem sync_files_correct {A B : Type} [DecidableEq A] [DecidableEq B]
    (adler32 : Bytes → A) (sha256hex : Bytes → B)
    (hinj : ∀ x y : Bytes, adler32 x = adler32 y → sha256hex x = sha256hex y → x = y)
    (b : Nat) (hb : 0 < b) (src dest : Bytes) :
    ∃ written, sync_files adler32 sha256hex b src dest = some (src, written)
      ∧ ∀ i, i ∈ written ↔ (i < (chunks b src).length ∧
          ((chunks b dest).length ≤ i ∨
            ¬(adler32 ((chunks b src).getD i []) = adler32 ((chunks b dest).getD i [])
              ∧ sha256hex ((chunks b src).getD i [])
                  = sha256hex ((chunks b dest).getD i [])))) := by
  obtain ⟨dF, ws, hrun, htk, hdtk, hws⟩ :=
    syncLoop_spec adler32 sha256hex hinj b hb dest src.length src le_rfl 0
      (chunkSigs adler32 sha256hex b dest).reverse dest
      (fun _ => ⟨by simp, by simp, by simp⟩)
  have hdF : dF.take src.length = src := by simpa using hdtk
  have hlen : src.length ≤ dF.length := by
    have h1 := congrArg List.length hdF
    simp only [List.length_take] at h1
    omega
  refine ⟨ws, ?_, ?_⟩
  · unfold sync_files get_chunks
    simp only [hrun]
    rw [truncateTo_of_le dF src.length hlen, hdF]
  · intro i
    rw [hws i]
    constructor
    · rintro ⟨_, h2, h3⟩
      exact ⟨by omega, by simpa using h3⟩
    · rintro ⟨h1, h2⟩
      exact ⟨Nat.zero_le i, by omega, by simpa using h2⟩

/-- C3 witness: syncing `[1, 2, 3]` into `[5, 6]` with blocksize 2 under the
identity signature. -/
theorem sync_files_correct_witness :
    (0 < 2)
    ∧ ∃ written,
        sync_files (fun c : Bytes => c) (fun _ : Bytes => ()) 2 [1, 2, 3] [5, 6]
          = some ([1, 2, 3], written)
        ∧ ∀ i, i ∈ written ↔ (i < (chunks 2 [1, 2, 3]).length ∧
            ((chunks 2 [5, 6]).length ≤ i ∨
              ¬((fun c : Bytes => c) ((chunks 2 [1, 2, 3]).getD i [])
                  = (fun c : Bytes => c) ((chunks 2 [5, 6]).getD i [])
                ∧ (fun _ : Bytes => ()) ((chunks 2 [1, 2, 3]).getD i [])
                  = (fun _ : Bytes => ()) ((chunks 2 [5, 6]).getD i [])))) :=
  ⟨by decide, sync_files_correct (fun c => c) (fun _ => ())
    (fun x y h _ => h) 2 (by decide) [1, 2, 3] [5, 6]⟩

/-- C1: at the concrete failing input — source file `[1]`, destination file
`[2]`, `use_metadata = false`, `full_hashcheck = true` (hashes instantiated
with the identity, which is collision-free) — `sync_locations` returns
successfully with the destination left at `[2]`, which is not byte-for-byte
equal to the source `[1]`: the whole-stream digests differ, and the inverted
guard `if not full_hashcheck or raw_hash_check(...)` skips the transfer. -/
theorem sync_locations_fullhash_leaves_dest_unequal :
    sync_locations_file (fun c => c) (fun _ => ()) (fun c => c) false true
      ⟨[2], 0⟩ ⟨[1], 0⟩ = some (⟨[2], 0⟩, false) ∧ ([2] : Bytes) ≠ [1] :=
  ⟨rfl, by decide⟩

/-- C2: with `full_hashcheck` true the code computes both whole-stream
digests first, but then runs `sync_files` exactly when the digests AGREE and
skips it when they DIFFER — the inverse of the claimed behaviour.  At
`src = [1]`, `dst = [2]` the digests differ and the transfer is skipped
(flag `false`, destination untouched); at `src = [1]`, `dst = [1]` the
digests agree and the transfer is performed (flag `true`). -/
theorem sync_locations_hashcheck_guard_inverted :
    (sync_locations_file (fun c => c) (fun _ => ()) (fun c => c) false true
      ⟨[2], 0⟩ ⟨[1], 0⟩ = some (⟨[2], 0⟩, false))
    ∧ (sync_locations_file (fun c => c) (fun _ => ()) (fun c => c) false true
      ⟨[1], 7⟩ ⟨[1], 3⟩ = some (⟨[1], 7⟩, true))
    ∧ raw_hash_check (fun c => c) [1] [2] = false :=
  ⟨rfl, rfl, by decide⟩

/-- C6 counterexample: with recurrence `m = 1` (so the claimed minute would
be the smallest `x ∈ [0, 59]` with `x ≥ 59`, namely `59`) and current time
10:59, the computation does not return a datetime at all: the candidate
minutes range over `range(59) = 0..58`, the comprehension is empty, and
indexing it raises `IndexError`. -/
theorem calculate_first_run_minute59_errors :
    calculate_first_run (some 1) none none ⟨2024, 5, 6, 10, 59⟩ =
      .error "IndexError" := by
  rfl

/-- C7: recomputation after a fire.  A recurring entry `(m, h)` with
next-fire `t` advances to exactly `t + h hours + m minutes` and is pushed
back onto the pending set; since the intervals are non-negative the new
next-fire is never earlier, so successive fires differ by exactly the
interval and next-fire is monotonically non-decreasing.  An entry without a
recurrence gets next-fire `none` and is not re-queued (it is removed). -/
theorem calculate_next_run_advances_by_interval (m h : Nat) (t : Int)
    (e0 : SchedEntry) :
    (calculate_next_run ⟨some ⟨m, h⟩, some t⟩).next_run
        = some (t + ((h : Int) * 60 + m))
    ∧ requeue_after_fire ⟨some ⟨m, h⟩, some t⟩
        = some ⟨some ⟨m, h⟩, some (t + ((h : Int) * 60 + m))⟩
    ∧ t ≤ t + ((h : Int) * 60 + m)
    ∧ (calculate_next_run ⟨none, e0.next_run⟩).next_run = none
    ∧ requeue_after_fire ⟨none, e0.next_run⟩ = none := by
  refine ⟨rfl, ?_, ?_, rfl, rfl⟩
  · simp [requeue_after_fire, calculate_next_run]
  · have h60 : (0 : Int) ≤ (h : Int) * 60 + m := by positivity
    omega

/-- Helper: the head of `filter p (range n)` is the least `x < n`
satisfying `p`. -/
theorem filter_range_head_eq (n : Nat) (p : Nat → Bool) (x : Nat) (hx : x < n)
    (hpx : p x = true) (hmin : ∀ y, y < x → p y = false) :
    ∃ tl, (List.range n).filter p = x :: tl := by
  induction n with
  | zero => omega
  | succ n ih =>
    rw [List.range_succ, List.filter_append]
    by_cases hxn : x < n
    · obtain ⟨tl, htl⟩ := ih hxn
      exact ⟨tl ++ List.filter p [n], by rw [htl]; rfl⟩
    · have hxe : x = n := by omega
      subst hxe
      have hempty : (List.range x).filter p = [] := by
        rw [List.filter_eq_nil_iff]
        intro a ha
        simp [hmin a (List.mem_range.mp ha)]
      rw [hempty]
      simp [hpx]

/-- C6 (amended): for a recurrence with `m > 0` and non-negative hour
component, when the target hour `now.hour + h'` stays within `0..23` and
some minute in the searched range `[0, 58]` is a multiple of `m` not below
`now.minute`, the computation returns today at hour `now.hour + h'` and the
smallest such minute `x`.  (Outside those bounds the code raises, as the
counterexample shows.) -/
theorem calculate_first_run_min_interval_spec (m : Nat) (hI : Option Int)
    (now : PyDateTime) (x : Nat)
    (hm : 0 < m)
    (hneg : ∀ v, hI = some v → 0 ≤ v)
    (hx : x < 59) (hmod : x % m = 0) (hge : now.minute ≤ x)
    (hleast : ∀ y, y < x → ¬(y % m = 0 ∧ now.minute ≤ y))
    (hhour : now.hour + (hI.getD 0).toNat ≤ 23) :
    calculate_first_run (some (m : Int)) hI none now =
      .ok ⟨now.year, now.month, now.day, now.hour + (hI.getD 0).toNat, x⟩ := by
  have hm' : ((m : Int)).toNat = m := Int.toNat_natCast m
  obtain ⟨tl, htl⟩ := filter_range_head_eq 59
    (fun mi => decide (mi % m = 0) && decide (now.minute ≤ mi)) x hx
    (by simp [hmod, hge])
    (by
      intro y hy
      have hny := hleast y hy
      simp only [Bool.and_eq_false_iff, decide_eq_false_iff_not]
      by_cases h1 : y % m = 0
      · exact Or.inr (fun h2 => hny ⟨h1, h2⟩)
      · exact Or.inl h1)
  have hm0 : ¬((m : Int) = 0) := by
    simpa using Nat.pos_iff_ne_zero.mp hm
  have hmlt : decide ((m : Int) < 0) = false := by
    simp
  cases hI with
  | none =>
    unfold calculate_first_run
    simp only [hmlt, Bool.or_false, Bool.false_eq_true, if_false, hm']
    rw [if_neg (by simp [hm0]), if_neg hm0, htl]
    simp only [Option.getD] at hhour ⊢
    simpa [mkDatetime] using ⟨by simpa using hhour, by omega⟩
  | some v =>
    have hv : 0 ≤ v := hneg v rfl
    have hvlt : decide (v < 0) = false := by simpa using hv
    unfold calculate_first_run
    simp only [hmlt, hvlt, Bool.or_self, Bool.false_eq_true, if_false, hm']
    rw [if_neg (by simp [hm0]), if_neg hm0, htl]
    simp only [Option.getD] at hhour ⊢
    simpa [mkDatetime] using ⟨by simpa using hhour, by omega⟩

/-- C6 amended-theorem witness at `m = 15`, `h = 2`, now = 10:07. -/
theorem calculate_first_run_min_interval_spec_witness :
    (0 < 15) ∧ (15 % 15 = 0) ∧ ((7 : Nat) ≤ 15)
    ∧ calculate_first_run (some (15 : Int)) (some 2) none ⟨2024, 5, 6, 10, 7⟩ =
        .ok ⟨2024, 5, 6, 12, 15⟩ := by
  refine ⟨by decide, by decide, by decide, ?_⟩
  have h := calculate_first_run_min_interval_spec 15 (some 2) ⟨2024, 5, 6, 10, 7⟩ 15
    (by decide) (by intro v hv; simp at hv; omega) (by decide) (by decide) (by decide)
    (by
      intro y hy hcon
      obtain ⟨h1, h2⟩ := hcon
      have h2' : 7 ≤ y := h2
      omega) (by decide)
  simpa using h

/-- Helper: `bindNames` only binds the mutex and archive file names; the
task's other fields are untouched. -/
theorem bindNames_fields (mp ap : String → String) (t : TaskSt) :
    (bindNames mp ap t).task_name = t.task_name
    ∧ (bindNames mp ap t).uuid = t.uuid
    ∧ (bindNames mp ap t).interactive = t.interactive
    ∧ (bindNames mp ap t).halt_files = t.halt_files
    ∧ (bindNames mp ap t).required_files = t.required_files
    ∧ (t.has_mutex = true → (bindNames mp ap t).mutex = some (mp t.task_name)) := by
  simp only [bindNames]
  by_cases h1 : t.has_mutex = true <;> by_cases h2 : t.has_archive = true <;>
    simp [h1, h2]

/-- C5: in `check_run_conditions` of a task with `has_mutex`, once the
archive, halt-file and required-file checks pass: if the mutex file exists
the run logs `MUTEX_FOUND` and requests a clean exit with code zero, leaving
the filesystem (in particular the mutex) and the mutex-registration queue
untouched; otherwise the mutex file is touched, the pair
`(<task-name>-<uuid>, mutex)` is enqueued on the runner's
mutex-registration channel, and `CONDITIONS_PASSED` is logged. -/
theorem check_run_conditions_mutex_spec (mutexPath archivePath : String → String)
    (rotateFs : List String → String → List String) (w : TaskWorld) (override : Bool)
    (hm : w.task.has_mutex = true)
    (hi : w.task.interactive = false)
    (harc : ∀ a, (bindNames mutexPath archivePath w.task).archive_file = some a → a ∉ w.fs)
    (hhalt : ∀ hf ∈ w.task.halt_files, hf ∉ w.fs)
    (hreq : ∀ rf ∈ w.task.required_files, rf ∈ w.fs) :
    check_run_conditions mutexPath archivePath rotateFs w override =
      if mutexPath w.task.task_name ∈ w.fs then
        ({ w with task := bindNames mutexPath archivePath w.task,
                  logs := w.logs ++ ["MUTEX_FOUND"] }, Outcome.exited 0)
      else
        ({ w with
            task := { bindNames mutexPath archivePath w.task with task_run_check := true },
            fs := w.fs ++ [mutexPath w.task.task_name],
            mutex_queue := w.mutex_queue
              ++ [(w.task.task_name ++ "-" ++ w.task.uuid, mutexPath w.task.task_name)],
            logs := w.logs ++ ["CONDITIONS_PASSED"] }, Outcome.finished) := by
  obtain ⟨hname, huuid, hint, hhf, hrf, hmux⟩ := bindNames_fields mutexPath archivePath w.task
  have harcHit :
      (match (bindNames mutexPath archivePath w.task).archive_file with
        | some a => decide (a ∈ w.fs)
        | none => false) = false := by
    cases h : (bindNames mutexPath archivePath w.task).archive_file with
    | none => rfl
    | some a => simpa using harc a h
  have hfind : (bindNames mutexPath archivePath w.task).halt_files.find?
      (fun hf => decide (hf ∈ w.fs)) = none := by
    rw [List.find?_eq_none]
    intro hf hmem
    rw [hhf] at hmem
    simpa using hhalt hf hmem
  have hall : (bindNames mutexPath archivePath w.task).required_files.all
      (fun rf => decide (rf ∈ w.fs)) = true := by
    rw [List.all_eq_true, hrf]
    intro rf hmem
    simpa using hreq rf hmem
  unfold check_run_conditions
  simp only [harcHit, hfind, hall, hmux hm, hname, huuid, hint, hi, exit_code,
    Bool.false_and, Bool.false_eq_true, if_false, Bool.not_true, Bool.not_false,
    ite_false, ite_true]

/-- C5 witness: the mutex-found branch at a concrete world (the task has
`has_mutex`, no archive, no halt or required files, and its mutex file
exists). -/
theorem check_run_conditions_mutex_spec_witness :
    check_run_conditions (fun _ => "t1.mutex") (fun _ => "arc") (fun fs _ => fs)
        ⟨⟨"t1", "u1", true, false, false, false, none, none, [], []⟩,
          ["t1.mutex"], [], []⟩ false
      = (⟨⟨"t1", "u1", true, false, false, false, some "t1.mutex", none, [], []⟩,
          ["t1.mutex"], [], ["MUTEX_FOUND"]⟩, Outcome.exited 0) := by
  have h := check_run_conditions_mutex_spec (fun _ => "t1.mutex") (fun _ => "arc")
    (fun fs _ => fs)
    ⟨⟨"t1", "u1", true, false, false, false, none, none, [], []⟩, ["t1.mutex"], [], []⟩
    false rfl rfl (by intro a ha; simp [bindNames] at ha) (by simp) (by simp)
  simpa [bindNames] using h

/-- Helper: association-list lookup finds the value of a present key when
keys are unique. -/
theorem lookupKey_eq_some_of_mem (k v : String) :
    ∀ l : List (String × String), (l.map Prod.fst).Nodup → (k, v) ∈ l →
      lookupKey k l = some v := by
  intro l
  induction l with
  | nil => intro _ hm; cases hm
  | cons kv tl ih =>
    intro hnd hm
    rw [List.map_cons, List.nodup_cons] at hnd
    rcases List.mem_cons.mp hm with heq | htl
    · subst heq
      simp [lookupKey]
    · have hk : kv.1 ≠ k := by
        intro he
        exact hnd.1 (he ▸ (List.mem_map.mpr ⟨(k, v), htl, rfl⟩))
      simp only [lookupKey, if_neg hk]
      exact ih hnd.2 htl

/-- Helper: a successful lookup is a member of the list. -/
theorem lookupKey_mem (k v : String) :
    ∀ l : List (String × String), lookupKey k l = some v → (k, v) ∈ l := by
  intro l
  induction l with
  | nil => intro h; cases h
  | cons kv tl ih =>
    intro h
    simp only [lookupKey] at h
    split at h
    · rename_i heq
      cases h
      exact List.mem_cons.mpr (Or.inl (by rw [← heq]))
    · exact List.mem_cons.mpr (Or.inr (ih h))

/-- Helper: a key that fails to look up has no entry in the list. -/
theorem lookupKey_none_not_mem (k : String) :
    ∀ l : List (String × String), lookupKey k l = none →
      ∀ v, (k, v) ∉ l := by
  intro l
  induction l with
  | nil => intro _ v hm; cases hm
  | cons kv tl ih =>
    intro h v hm
    simp only [lookupKey] at h
    split at h
    · cases h
    · rename_i hne
      rcases List.mem_cons.mp hm with heq | htl
      · exact hne (by rw [← heq])
      · exact ih h v htl

/-- Helper: one reaper iteration for a still-live instance does nothing
(`graceful_kill` is false). -/
theorem reapStep_alive (st : RunnerSt) (e : TaskEntry) (h : e.alive = true) :
    reapStep st e = st := by
  simp [reapStep, h]

/-- Helper: one reaper iteration for a finished instance with nonzero exit
only emits `JOB_FAILED`. -/
theorem reapStep_failed (st : RunnerSt) (e : TaskEntry) (h : e.alive = false)
    (h2 : e.exitcode ≠ 0) :
    reapStep st e = { st with logs := st.logs ++ [(e.name, "JOB_FAILED")] } := by
  simp [reapStep, h, h2]

/-- Helper: one reaper iteration for a finished exit-zero instance without a
registered mutex only emits `JOB_COMPLETED`. -/
theorem reapStep_zero_none (st : RunnerSt) (e : TaskEntry) (h : e.alive = false)
    (h2 : e.exitcode = 0) (h3 : lookupKey e.name st.task_mutex_refs = none) :
    reapStep st e = { st with logs := st.logs ++ [(e.name, "JOB_COMPLETED")] } := by
  simp [reapStep, h, h2, h3]

/-- Helper: one reaper iteration for a finished exit-zero instance with a
registered mutex pops the registration, deletes the mutex file, and emits
`JOB_COMPLETED`. -/
theorem reapStep_zero_some (st : RunnerSt) (e : TaskEntry) (p : String)
    (h : e.alive = false) (h2 : e.exitcode = 0)
    (h3 : lookupKey e.name st.task_mutex_refs = some p) :
    reapStep st e =
      { st with task_mutex_refs := eraseKey e.name st.task_mutex_refs,
                mutex_files := st.mutex_files.filter (fun q => q ≠ p),
                logs := st.logs ++ [(e.name, "JOB_COMPLETED")] } := by
  simp [reapStep, h, h2, h3]

/-- Helper: the reaper's examination loop never touches
`current_runnings` (removal happens afterwards). -/
theorem foldl_reapStep_current (l : List TaskEntry) :
    ∀ st : RunnerSt, (l.foldl reapStep st).current_runnings = st.current_runnings := by
  induction l with
  | nil => intro st; rfl
  | cons e tl ih =>
    intro st
    rw [List.foldl_cons, ih]
    cases ha : e.alive with
    | true => rw [reapStep_alive st e ha]
    | false =>
      by_cases h2 : e.exitcode = 0
      · cases h3 : lookupKey e.name st.task_mutex_refs with
        | none => rw [reapStep_zero_none st e ha h2 h3]
        | some p => rw [reapStep_zero_some st e p ha h2 h3]
      · rw [reapStep_failed st e ha h2]

/-- Helper: the examination loop appends exactly the terminal records of the
finished entries, in order. -/
theorem foldl_reapStep_logs (l : List TaskEntry) :
    ∀ st : RunnerSt, (l.foldl reapStep st).logs = st.logs ++ l.filterMap reapMsg := by
  induction l with
  | nil => intro st; simp
  | cons e tl ih =>
    intro st
    rw [List.foldl_cons, ih]
    cases ha : e.alive with
    | true =>
      rw [reapStep_alive st e ha]
      simp [reapMsg, ha]
    | false =>
      by_cases h2 : e.exitcode = 0
      · cases h3 : lookupKey e.name st.task_mutex_refs with
        | none =>
          rw [reapStep_zero_none st e ha h2 h3]
          simp [reapMsg, ha, h2]
        | some p =>
          rw [reapStep_zero_some st e p ha h2 h3]
          simp [reapMsg, ha, h2]
      · rw [reapStep_failed st e ha h2]
        simp [reapMsg, ha, h2]

/-- Helper: a registration survives the examination loop exactly when its
key belongs to no finished exit-zero entry. -/
theorem foldl_reapStep_refs_mem (l : List TaskEntry) :
    ∀ (st : RunnerSt) (kv : String × String),
      kv ∈ (l.foldl reapStep st).task_mutex_refs ↔
        (kv ∈ st.task_mutex_refs ∧ kv.1 ∉ deadZeroNames l) := by
  induction l with
  | nil => intro st kv; simp [deadZeroNames]
  | cons e tl ih =>
    intro st kv
    have hdz :
        deadZeroNames (e :: tl) =
          (if e.alive = false ∧ e.exitcode = 0 then [e.name] else []) ++ deadZeroNames tl := by
      cases ha : e.alive with
      | true => simp [deadZeroNames, List.filter_cons, ha]
      | false =>
        by_cases h2 : e.exitcode = 0
        · simp [deadZeroNames, List.filter_cons, ha, h2]
        · simp [deadZeroNames, List.filter_cons, ha, h2]
    rw [List.foldl_cons]
    cases ha : e.alive with
    | true =>
      rw [reapStep_alive st e ha, ih, hdz]
      simp [ha]
    | false =>
      by_cases h2 : e.exitcode = 0
      · cases h3 : lookupKey e.name st.task_mutex_refs with
        | none =>
          rw [reapStep_zero_none st e ha h2 h3, ih, hdz]
          have hnm := lookupKey_none_not_mem e.name st.task_mutex_refs h3
          simp only [ha, h2, and_self, if_pos, List.singleton_append, List.mem_cons]
          constructor
          · rintro ⟨hm, hnd⟩
            refine ⟨hm, ?_⟩
            rintro (hn | hn)
            · exact hnm kv.2 (by rw [← hn]; exact hm)
            · exact hnd hn
          · rintro ⟨hm, hnd⟩
            exact ⟨hm, fun hn => hnd (Or.inr hn)⟩
        | some p =>
          rw [reapStep_zero_some st e p ha h2 h3, ih, hdz]
          simp only [ha, h2, and_self, if_pos, List.singleton_append, List.mem_cons,
            eraseKey, List.mem_filter, decide_eq_true_eq]
          constructor
          · rintro ⟨⟨hm, hne⟩, hnd⟩
            exact ⟨hm, fun hn => hn.elim (fun h => hne h) (fun h => hnd h)⟩
          · rintro ⟨hm, hnd⟩
            exact ⟨⟨hm, fun h => hnd (Or.inl h)⟩, fun h => hnd (Or.inr h)⟩
      · rw [reapStep_failed st e ha h2, ih, hdz]
        have hcond : ¬(e.alive = false ∧ e.exitcode = 0) := fun hc => h2 hc.2
        simp [hcond]

/-- Helper: the examination loop never creates mutex files. -/
theorem foldl_reapStep_files_subset (l : List TaskEntry) :
    ∀ (st : RunnerSt) (p : String),
      p ∈ (l.foldl reapStep st).mutex_files → p ∈ st.mutex_files := by
  induction l with
  | nil => intro st p h; exact h
  | cons e tl ih =>
    intro st p h
    rw [List.foldl_cons] at h
    cases ha : e.alive with
    | true =>
      rw [reapStep_alive st e ha] at h
      exact ih st p h
    | false =>
      by_cases h2 : e.exitcode = 0
      · cases h3 : lookupKey e.name st.task_mutex_refs with
        | none =>
          rw [reapStep_zero_none st e ha h2 h3] at h
          have hh := ih _ p h
          exact hh
        | some q =>
          rw [reapStep_zero_some st e q ha h2 h3] at h
          have hh := ih _ p h
          exact (List.mem_filter.mp hh).1
      · rw [reapStep_failed st e ha h2] at h
        have hh := ih _ p h
        exact hh

/-- Helper: the mutex file of a finished exit-zero entry is deleted by the
examination loop. -/
theorem foldl_reapStep_deletes (l : List TaskEntry) :
    ∀ (st : RunnerSt) (e : TaskEntry) (p : String), e ∈ l → e.alive = false →
      e.exitcode = 0 → (l.map TaskEntry.name).Nodup →
      (st.task_mutex_refs.map Prod.fst).Nodup →
      (e.name, p) ∈ st.task_mutex_refs →
      p ∉ (l.foldl reapStep st).mutex_files := by
  induction l with
  | nil => intro _ _ _ h; cases h
  | cons h0 tl ih =>
    intro st e p hmem hdead hzero hnames hkeys href hfin
    rw [List.map_cons, List.nodup_cons] at hnames
    rw [List.foldl_cons] at hfin
    rcases List.mem_cons.mp hmem with heq | htl
    · subst heq
      have h3 : lookupKey e.name st.task_mutex_refs = some p :=
        lookupKey_eq_some_of_mem e.name p st.task_mutex_refs hkeys href
      rw [reapStep_zero_some st e p hdead hzero h3] at hfin
      have hsub := foldl_reapStep_files_subset tl _ p hfin
      rw [List.mem_filter] at hsub
      simp at hsub
    · have hne : e.name ≠ h0.name := by
        intro hn
        exact hnames.1 (hn ▸ (List.mem_map.mpr ⟨e, htl, rfl⟩))
      cases ha : h0.alive with
      | true =>
        rw [reapStep_alive st h0 ha] at hfin
        exact ih st e p htl hdead hzero hnames.2 hkeys href hfin
      | false =>
        by_cases h2 : h0.exitcode = 0
        · cases h3 : lookupKey h0.name st.task_mutex_refs with
          | none =>
            rw [reapStep_zero_none st h0 ha h2 h3] at hfin
            exact ih { st with logs := st.logs ++ [(h0.name, "JOB_COMPLETED")] }
              e p htl hdead hzero hnames.2 hkeys href hfin
          | some q =>
            rw [reapStep_zero_some st h0 q ha h2 h3] at hfin
            refine ih { st with
                task_mutex_refs := eraseKey h0.name st.task_mutex_refs,
                mutex_files := st.mutex_files.filter (fun x => x ≠ q),
                logs := st.logs ++ [(h0.name, "JOB_COMPLETED")] }
              e p htl hdead hzero hnames.2 ?_ ?_ hfin
            · exact ((List.filter_sublist _).map Prod.fst).nodup hkeys
            · exact List.mem_filter.mpr ⟨href, by simpa using hne⟩
        · rw [reapStep_failed st h0 ha h2] at hfin
          exact ih { st with logs := st.logs ++ [(h0.name, "JOB_FAILED")] }
            e p htl hdead hzero hnames.2 hkeys href hfin

/-- Helper: a mutex file survives the examination loop provided no finished
exit-zero entry has it registered. -/
theorem foldl_reapStep_retains (l : List TaskEntry) :
    ∀ (st : RunnerSt) (p : String),
      (∀ h ∈ l, h.alive = false → h.exitcode = 0 →
        ∀ q, (h.name, q) ∈ st.task_mutex_refs → q ≠ p) →
      p ∈ st.mutex_files → p ∈ (l.foldl reapStep st).mutex_files := by
  induction l with
  | nil => intro st p _ h; exact h
  | cons h0 tl ih =>
    intro st p hguard hp
    rw [List.foldl_cons]
    cases ha : h0.alive with
    | true =>
      rw [reapStep_alive st h0 ha]
      exact ih st p (fun h hm => hguard h (List.mem_cons.mpr (Or.inr hm))) hp
    | false =>
      by_cases h2 : h0.exitcode = 0
      · cases h3 : lookupKey h0.name st.task_mutex_refs with
        | none =>
          rw [reapStep_zero_none st h0 ha h2 h3]
          exact ih _ p (fun h hm => hguard h (List.mem_cons.mpr (Or.inr hm))) hp
        | some q =>
          rw [reapStep_zero_some st h0 q ha h2 h3]
          have hq : q ≠ p :=
            hguard h0 (List.mem_cons.mpr (Or.inl rfl)) ha h2 q
              (lookupKey_mem h0.name q st.task_mutex_refs h3)
          refine ih _ p ?_ ?_
          · intro h hm hd hz q' hq'
            exact hguard h (List.mem_cons.mpr (Or.inr hm)) hd hz q'
              (List.mem_filter.mp hq').1
          · exact List.mem_filter.mpr ⟨hp, by simpa using fun hc => hq hc.symm⟩
      · rw [reapStep_failed st h0 ha h2]
        exact ih _ p (fun h hm => hguard h (List.mem_cons.mpr (Or.inr hm))) hp

/-- C4: one reaper pass over the live instances (all mutually distinct
composite keys, well-formed mutex registry).  A finished instance with exit
code zero is removed from the live instances, any mutex registered under its
key is deleted from disk and popped from the registry, and `JOB_COMPLETED`
is emitted for it.  A finished instance with nonzero exit gets `JOB_FAILED`
and its registered mutex is retained both in the registry and on disk. -/
theorem check_tasks_reaper_spec (st : RunnerSt) (e : TaskEntry)
    (he : e ∈ st.current_runnings) (hdead : e.alive = false)
    (hnames : (st.current_runnings.map TaskEntry.name).Nodup)
    (hkeys : (st.task_mutex_refs.map Prod.fst).Nodup)
    (hpaths : (st.task_mutex_refs.map Prod.snd).Nodup) :
    (e.exitcode = 0 →
      (∀ e' ∈ (check_tasks st).current_runnings, e'.name ≠ e.name)
      ∧ (∀ p, (e.name, p) ∈ st.task_mutex_refs →
          p ∉ (check_tasks st).mutex_files
          ∧ (e.name, p) ∉ (check_tasks st).task_mutex_refs)
      ∧ (e.name, "JOB_COMPLETED") ∈ (check_tasks st).logs)
    ∧ (e.exitcode ≠ 0 →
      (e.name, "JOB_FAILED") ∈ (check_tasks st).logs
      ∧ (∀ p, (e.name, p) ∈ st.task_mutex_refs →
          (e.name, p) ∈ (check_tasks st).task_mutex_refs
          ∧ (p ∈ st.mutex_files → p ∈ (check_tasks st).mutex_files))) := by
  have hinj := List.inj_on_of_nodup_map hnames
  have hcur : (check_tasks st).current_runnings
      = st.current_runnings.filter (fun x => x.alive) := by
    unfold check_tasks
    simp only [foldl_reapStep_current]
  have hlogs : (check_tasks st).logs
      = st.logs ++ st.current_runnings.filterMap reapMsg := by
    unfold check_tasks
    simp only [foldl_reapStep_logs]
  have hrefs : ∀ kv : String × String, kv ∈ (check_tasks st).task_mutex_refs ↔
      (kv ∈ st.task_mutex_refs ∧ kv.1 ∉ deadZeroNames st.current_runnings) := by
    intro kv
    unfold check_tasks
    simp only [foldl_reapStep_refs_mem]
  constructor
  · intro hzero
    refine ⟨?_, ?_, ?_⟩
    · intro e' he' hname
      rw [hcur, List.mem_filter] at he'
      have heq := hinj he'.1 he hname
      rw [heq, hdead] at he'
      exact Bool.noConfusion he'.2
    · intro p href
      constructor
      · show p ∉ (check_tasks st).mutex_files
        unfold check_tasks
        exact foldl_reapStep_deletes st.current_runnings st e p he hdead hzero
          hnames hkeys href
      · rw [hrefs]
        rintro ⟨_, hnd⟩
        refine hnd ?_
        unfold deadZeroNames
        exact List.mem_map.mpr ⟨e, List.mem_filter.mpr ⟨he, by simp [hdead, hzero]⟩, rfl⟩
    · rw [hlogs]
      refine List.mem_append.mpr (Or.inr ?_)
      exact List.mem_filterMap.mpr ⟨e, he, by simp [reapMsg, hdead, hzero]⟩
  · intro hnonzero
    have hinjp := List.inj_on_of_nodup_map hpaths
    constructor
    · rw [hlogs]
      refine List.mem_append.mpr (Or.inr ?_)
      exact List.mem_filterMap.mpr ⟨e, he, by simp [reapMsg, hdead, hnonzero]⟩
    · intro p href
      constructor
      · rw [hrefs]
        refine ⟨href, ?_⟩
        intro hdz
        unfold deadZeroNames at hdz
        rcases List.mem_map.mp hdz with ⟨h0, hh0, hname⟩
        rw [List.mem_filter] at hh0
        have heq := hinj hh0.1 he hname
        rw [heq] at hh0
        simp [hdead, hnonzero] at hh0
      · intro hp
        show p ∈ (check_tasks st).mutex_files
        unfold check_tasks
        refine foldl_reapStep_retains st.current_runnings st p ?_ hp
        intro h0 hh0 hd hz q hq hqp
        rw [hqp] at hq
        have heq : (h0.name, p) = (e.name, p) := hinjp hq href rfl
        have hn0 : h0.name = e.name := congrArg Prod.fst heq
        have he0 := hinj hh0 he hn0
        rw [he0] at hz
        exact hnonzero hz

/-- C4 witness: two finished instances, one succeeded (its mutex `ma` is
cleaned) and one failed (its mutex `mb` is retained). -/
theorem check_tasks_reaper_spec_witness :
    ((⟨"a-1", false, 0⟩ : TaskEntry) ∈
      (RunnerSt.mk [⟨"a-1", false, 0⟩, ⟨"b-2", false, 3⟩]
        [("a-1", "ma"), ("b-2", "mb")] ["ma", "mb"] []).current_runnings)
    ∧ ((0 : Int) = 0 →
      (∀ e' ∈ (check_tasks (RunnerSt.mk [⟨"a-1", false, 0⟩, ⟨"b-2", false, 3⟩]
          [("a-1", "ma"), ("b-2", "mb")] ["ma", "mb"] [])).current_runnings,
        e'.name ≠ (⟨"a-1", false, 0⟩ : TaskEntry).name)
      ∧ (∀ p, (("a-1", p) ∈ [("a-1", "ma"), ("b-2", "mb")]) →
          p ∉ (check_tasks (RunnerSt.mk [⟨"a-1", false, 0⟩, ⟨"b-2", false, 3⟩]
            [("a-1", "ma"), ("b-2", "mb")] ["ma", "mb"] [])).mutex_files
          ∧ ("a-1", p) ∉ (check_tasks (RunnerSt.mk [⟨"a-1", false, 0⟩, ⟨"b-2", false, 3⟩]
            [("a-1", "ma"), ("b-2", "mb")] ["ma", "mb"] [])).task_mutex_refs)
      ∧ ("a-1", "JOB_COMPLETED") ∈ (check_tasks (RunnerSt.mk
          [⟨"a-1", false, 0⟩, ⟨"b-2", false, 3⟩]
          [("a-1", "ma"), ("b-2", "mb")] ["ma", "mb"] [])).logs) := by
  refine ⟨by simp, ?_⟩
  have h := check_tasks_reaper_spec
    (RunnerSt.mk [⟨"a-1", false, 0⟩, ⟨"b-2", false, 3⟩]
      [("a-1", "ma"), ("b-2", "mb")] ["ma", "mb"] [])
    ⟨"a-1", false, 0⟩ (by simp) rfl (by simp) (by simp) (by simp)
  exact h.1

/-- Helper: the `while` loop of `rotate` returns the first counter at or
after `c` whose `old` name is free, provided the fuel covers it. -/
theorem rotateFind_first_free (fs : RotName → Bool) :
    ∀ (fuel c n : Nat), c ≤ n → n < c + fuel → fs (.old n) = false →
      (∀ k, c ≤ k → k < n → fs (.old k) = true) →
      rotateFind fs c fuel = some n := by
  intro fuel
  induction fuel with
  | zero => intro c n h1 h2 _ _; omega
  | succ fuel ih =>
    intro c n h1 h2 h3 h4
    simp only [rotateFind]
    by_cases hc : fs (.old c) = true
    · have hcn : c ≠ n := by
        intro he
        rw [he, h3] at hc
        exact Bool.noConfusion hc
      rw [if_pos hc]
      exact ih (c + 1) n (by omega) (by omega) h3 (fun k hk1 hk2 => h4 k (by omega) hk2)
    · have hcn : c = n := by
        by_contra hne
        exact hc (h4 c le_rfl (by omega))
      rw [if_neg hc, hcn]

/-- C8: rotating an existing Location renames it onto `old<N>` for the
smallest `N` whose name was free: afterwards the Location itself no longer
exists, `old<N>` (which did not exist before) now exists, and every other
`old` entry is exactly as before — so exactly one new entry appeared.  On a
missing Location, `rotate` fails with `FileNotFoundError`.  The bound `B`
witnesses that only finitely many `old<n>` names are taken, which is what
makes the source's unbounded `while` loop (here: the fuel) terminate. -/
theorem rotate_spec (fs : RotName → Bool) (B fuel : Nat)
    (hB : ∀ n, B ≤ n → fs (.old n) = false) (hfuel : B < fuel) :
    (fs .base = true →
      ∃ N fs', rotate fs fuel = .ok fs'
        ∧ (∀ k, k < N → fs (.old k) = true) ∧ fs (.old N) = false
        ∧ fs' .base = false ∧ fs' (.old N) = true
        ∧ (∀ k, k ≠ N → fs' (.old k) = fs (.old k)))
    ∧ (fs .base = false → rotate fs fuel = .error "FileNotFoundError") := by
  have hex : ∃ n, fs (.old n) = false := ⟨B, hB B le_rfl⟩
  have hNfree : fs (.old (Nat.find hex)) = false := Nat.find_spec hex
  have hNmin : ∀ k, k < Nat.find hex → fs (.old k) = true := by
    intro k hk
    have hne := Nat.find_min hex hk
    cases h : fs (.old k) with
    | true => rfl
    | false => exact absurd h hne
  have hNle : Nat.find hex ≤ B := Nat.find_min' hex (hB B le_rfl)
  have hfind := rotateFind_first_free fs fuel 0 (Nat.find hex) (Nat.zero_le _)
    (by omega) hNfree (fun k _ hk => hNmin k hk)
  constructor
  · intro hbase
    refine ⟨Nat.find hex,
      (fun p => match p with
        | .base => false
        | .old m => if m = Nat.find hex then true else fs (.old m)),
      ?_, hNmin, hNfree, rfl, by simp, ?_⟩
    · unfold rotate
      rw [hfind]
      simp [hbase]
    · intro k hk
      simp [hk]
  · intro hbase
    unfold rotate
    rw [hfind]
    simp [hbase]

/-- C8 witness: `base`, `old0` and `old1` exist; rotate picks `N = 2`. -/
theorem rotate_spec_witness :
    ((fun p => match p with
        | RotName.base => true
        | RotName.old n => decide (n < 2)) RotName.base = true)
    ∧ ∃ N fs', rotate (fun p => match p with
        | RotName.base => true
        | RotName.old n => decide (n < 2)) 3 = .ok fs'
      ∧ (∀ k, k < N → (fun p => match p with
          | RotName.base => true
          | RotName.old n => decide (n < 2)) (.old k) = true)
      ∧ (fun p => match p with
          | RotName.base => true
          | RotName.old n => decide (n < 2)) (.old N) = false
      ∧ fs' .base = false ∧ fs' (.old N) = true
      ∧ (∀ k, k ≠ N → fs' (.old k) = (fun p => match p with
          | RotName.base => true
          | RotName.old n => decide (n < 2)) (.old k)) := by
  have h := rotate_spec (fun p => match p with
      | RotName.base => true
      | RotName.old n => decide (n < 2)) 2 3
    (by intro n hn; simpa using by omega) (by omega)
  exact ⟨rfl, h.1 rfl⟩

/-- C9 counterexample: moving `"a"` onto an existing destination `"b"`
succeeds (no error is raised); the destination merely gets overwritten after
a warning. -/
theorem move_local_succeeds_on_existing_dest :
    exceptIsOk (move_local
        (fun p => if p = "a" then some [1] else if p = "b" then some [2] else none)
        "a" "b") = true
    ∧ ((fun p => if p = "a" then some ([1] : Bytes)
        else if p = "b" then some [2] else none) "b").isSome = true :=
  ⟨rfl, rfl⟩

/-- C9 (amended): `move` between two local regular-file locations succeeds
even when the destination exists: the source's contents end up at the
destination (overwriting it), the source entry is gone, every other path is
untouched, and the "will be overwritten" warning is logged exactly because
the destination existed. -/
theorem move_local_overwrites_existing_dest (fs : String → Option Bytes)
    (s d : String) (c : Bytes) (hs : fs s = some c)
    (hd : (fs d).isSome = true) :
    ∃ fs', move_local fs s d = .ok (fs', true)
      ∧ fs' d = some c
      ∧ (s ≠ d → fs' s = none)
      ∧ (∀ p, p ≠ s → p ≠ d → fs' p = fs p) := by
  refine ⟨fun p => if p = d then some c else if p = s then none else fs p, ?_, ?_, ?_, ?_⟩
  · simp only [move_local, hs, hd]
  · simp
  · intro hne
    simp [hne]
  · intro p hps hpd
    simp [hps, hpd]

/-- C9 witness: the amended theorem applied at the counterexample's input. -/
theorem move_local_overwrites_existing_dest_witness :
    ((fun p => if p = "a" then some ([1] : Bytes)
        else if p = "b" then some [2] else none) "a" = some [1])
    ∧ ∃ fs', move_local
        (fun p => if p = "a" then some [1] else if p = "b" then some [2] else none)
        "a" "b" = .ok (fs', true)
      ∧ fs' "b" = some [1]
      ∧ ("a" ≠ "b" → fs' "a" = none)
      ∧ (∀ p, p ≠ "a" → p ≠ "b" → fs' p =
          (fun p => if p = "a" then some [1] else if p = "b" then some [2] else none) p) :=
  ⟨rfl, move_local_overwrites_existing_dest _ "a" "b" [1] rfl rfl⟩

/-- C10: the `tmp_loc` setter stores the raw assigned value itself — a
configuration dict stays the raw dict, not the Location `_check_storage_arg`
converts it to, and no date subdirectory is joined — whereas the `data_loc`,
`report_loc` and `archive_loc` setters store a freshly derived Location
joined with their dated subdirectory. -/
theorem tmp_loc_setter_stores_raw_argument {Cfg Loc : Type} (gen : Cfg → Loc)
    (joinLoc : Loc → String → Loc) (stemOf : Loc → String)
    (st : StorageSt Cfg Loc) (v : StorageArg Cfg Loc) (cfg : Cfg) :
    (set_tmp_loc gen st v).tmp_loc = v
    ∧ (set_tmp_loc gen st (.dict cfg)).tmp_loc = .dict cfg
    ∧ (set_tmp_loc gen st (.dict cfg)).tmp_loc ≠ .loc (gen cfg)
    ∧ (set_data_loc gen joinLoc st v).data_loc
        = joinLoc (check_storage_arg gen v) ("data_" ++ st.report_date_str)
    ∧ (set_report_loc gen joinLoc st v).report_loc
        = joinLoc (check_storage_arg gen v) ("report_" ++ st.report_date_str)
    ∧ (set_archive_loc gen joinLoc stemOf st v).archive_loc
        = joinLoc (check_storage_arg gen v) ("archive_" ++ st.report_date_str) := by
  refine ⟨rfl, rfl, fun h => StorageArg.noConfusion h, rfl, rfl, ?_⟩
  cases h : st.archive_file <;> simp [set_archive_loc, h]

end AfkSpec
